import Mathlib

/-!
Shallow embedding of `src/polymer_states/__init__.py` (the repton-model
rule engine).  Python `Link` values are the five-constructor inductive
type `Link`; a `Polymer` is its tuple of links, embedded as `List Link`;
Python `None` (the boundary sentinel appearing in link pairs) is `none`,
so a link pair is a pair of `Option Link`.  Construction of a `Polymer`
validates every element exactly as `tuple(map(Link, links))` does: a
sentinel in a kept slot makes the construction fail, which `mkPolymer`
models by returning `none`.  Python dicts keyed by polymers are embedded
as association lists with Python's update semantics.  Python sets of
freshly built polymers are embedded as lists (each builder below produces
pairwise distinct elements, so no deduplication is lost); `reachable_from`
converts to a `Finset` mirroring `set(...)`.
-/

namespace PolymerStates

inductive Link : Type
  | UP
  | DOWN
  | LEFT
  | RIGHT
  | SLACK
deriving DecidableEq, Fintype

open Link

/-- `Link.is_slack` from the source: `self == Link.SLACK`. -/
def Link.is_slack (l : Link) : Bool := l == SLACK

/-- `Link.is_taut` from the source: `not self.is_slack()`. -/
def Link.is_taut (l : Link) : Bool := ! l.is_slack

/-- `Link.opposite` from the source lookup table. -/
def Link.opposite : Link → Link
  | UP => DOWN
  | DOWN => UP
  | LEFT => RIGHT
  | RIGHT => LEFT
  | SLACK => SLACK

/-- `Link.TAUT_LINKS`: the four taut links. -/
def TAUT_LINKS : List Link := [UP, DOWN, LEFT, RIGHT]

/-- `Link.PERPENDICULAR_PAIRS` from the source. -/
def PERPENDICULAR_PAIRS : List (Link × Link) :=
  [(UP, LEFT), (UP, RIGHT), (DOWN, LEFT), (DOWN, RIGHT),
   (LEFT, UP), (LEFT, DOWN), (RIGHT, UP), (RIGHT, DOWN)]

/-- `HERNIA_PAIRS = {(link, link.opposite()) for link in Link.TAUT_LINKS}`. -/
def HERNIA_PAIRS : List (Link × Link) := TAUT_LINKS.map (fun l => (l, l.opposite))

/-- `MoveType.VALID_MOVE_TYPE_VALUES = {1 << i for i in range(8)}`. -/
def VALID_MOVE_TYPE_VALUES : List Nat := (List.range 8).map (fun i => 1 <<< i)

/-- `MoveType.__new__`: constructing a `MoveType` from a value outside
`VALID_MOVE_TYPE_VALUES` raises `ValueError`, modelled as `none`. -/
def MoveType.mk? (v : Nat) : Option Nat :=
  if v ∈ VALID_MOVE_TYPE_VALUES then some v else none

/-- The attribute names bound on the `MoveType` class by the tuple
unpacking at lines 85-94 of the source, in source order.  Note the fifth
name is `HERNIA_`, not `HERNIA_REDIRECTION`. -/
def MoveType_attr_names : List String :=
  ["HERNIA_CREATION", "REPTATION", "BARRIER_CROSSING", "HERNIA_ANNIHILATION",
   "HERNIA_", "END_CONTRACTION", "END_EXTENSION", "END_WIGGLE"]

/-- A link pair as yielded by `Polymer.link_pairs`: either side may be the
boundary sentinel `None`. -/
abbrev Pair := Option Link × Option Link

/-- `Polymer.__init__`: `tuple(map(Link, links))`, where applying `Link` to
`None` (the only non-`Link` value fed to it inside the engine) raises
`ValueError`; the failure is modelled by `none`. -/
def mkPolymer : List (Option Link) → Option (List Link)
  | [] => some []
  | none :: _ => none
  | some l :: rest => (mkPolymer rest).map (l :: ·)

/-- `Polymer.all_curled_up(link_count)`: `cls([Link.SLACK] * link_count)`. -/
def all_curled_up (link_count : Nat) : Option (List Link) :=
  mkPolymer (List.replicate link_count (some SLACK))

/-- The all-slack chain that `all_curled_up` constructs. -/
def curled (n : Nat) : List Link := List.replicate n SLACK

/-- The virtual padded view `(None,) + self.links() + (None,)`. -/
def vlinks (L : List Link) : List (Option Link) := none :: (L.map some ++ [none])

/-- `Polymer.link_pairs`: `zip((None,) + links, links + (None,))`. -/
def link_pairs (L : List Link) : List Pair :=
  List.zip (none :: L.map some) (L.map some ++ [none])

/-- The list comprehension of `Polymer.substitute_pair`: rebuild the virtual
view with position `p` replaced by the pair's first component and position
`p + 1` by its second. -/
def new_vlinks (L : List Link) (p : Nat) (r : Pair) : List (Option Link) :=
  (vlinks L).enum.map (fun il => if il.1 = p then r.1 else if il.1 = p + 1 then r.2 else il.2)

/-- `Polymer.substitute_pair`: construct a polymer from the interior slice
`new_vlinks[1:-1]`. -/
def substitute_pair (L : List Link) (p : Nat) (r : Pair) : Option (List Link) :=
  mkPolymer (((new_vlinks L p r).drop 1).dropLast)

/-- `Polymer.is_edge_pair(pair)`: `None in pair`. -/
def is_edge_pair (pair : Pair) : Bool := pair.1 == none || pair.2 == none

/-- `Polymer.is_bent_pair(pair)`: `pair in Link.PERPENDICULAR_PAIRS` (a pair
containing the boundary sentinel is never a member). -/
def is_bent_pair : Pair → Bool
  | (some a, some b) => (a, b) ∈ PERPENDICULAR_PAIRS
  | _ => false

/-- `Polymer.can_reptate(pair)`: not an edge pair and `Link.SLACK in pair`. -/
def can_reptate (pair : Pair) : Bool :=
  !is_edge_pair pair && (pair.1 == some SLACK || pair.2 == some SLACK)

/-- `Polymer.is_hernia(pair)`: `set(pair)` equals `{UP, DOWN}` or
`{LEFT, RIGHT}`. -/
def is_hernia : Pair → Bool
  | (some a, some b) =>
      (a == UP && b == DOWN) || (a == DOWN && b == UP) ||
      (a == LEFT && b == RIGHT) || (a == RIGHT && b == LEFT)
  | _ => false

/-- `Polymer.both_slacks(pair)`: `pair == (Link.SLACK, Link.SLACK)`. -/
def both_slacks (pair : Pair) : Bool :=
  pair == ((some SLACK, some SLACK) : Pair)

/-- `[l for l in pair if l is not None][0]` of the `at_end_pairs` decorator;
on the pair `(None, None)` (which only a zero-link chain produces) the
Python expression raises `IndexError`, a region no claim evaluates. -/
def the_end_link : Pair → Option Link
  | (some l, _) => some l
  | (none, r) => r

/-- The `at_end_pairs` decorator: lift a `Link -> set of Links` rule to a
transformer acting on the end links of a chain. -/
def at_end_pairs (f : Link → List Link) (L : List Link) (p : Nat) (pair : Pair) :
    List (List Link) :=
  if !is_edge_pair pair then []
  else
    match the_end_link pair with
    | none => []
    | some link =>
        (f link).filterMap
          (fun new_link =>
            substitute_pair L p (pair.1.map (fun _ => new_link), pair.2.map (fun _ => new_link)))

/-- `Polymer.__contract_taut_ends_if_possible`. -/
def contract_taut_ends_if_possible : List Link → Nat → Pair → List (List Link) :=
  at_end_pairs (fun link => if link.is_taut then [SLACK] else [])

/-- `Polymer.__extract_slack_ends_if_possible`. -/
def extract_slack_ends_if_possible : List Link → Nat → Pair → List (List Link) :=
  at_end_pairs (fun link => if link.is_slack then TAUT_LINKS else [])

/-- `Polymer.__wiggle_end_links_if_possible`. -/
def wiggle_end_links_if_possible : List Link → Nat → Pair → List (List Link) :=
  at_end_pairs (fun link =>
    if !link.is_taut then [] else TAUT_LINKS.filter (fun taut_link => taut_link != link))

/-- `Polymer.__create_hernias_at`. -/
def create_hernias_at (L : List Link) (i : Nat) (current : Pair) : List (List Link) :=
  (([(UP, DOWN), (DOWN, UP), (LEFT, RIGHT), (RIGHT, LEFT)] : List (Link × Link)).filter
      (fun pair => ((some pair.1, some pair.2) : Pair) != current)).filterMap
    (fun pair => substitute_pair L i (some pair.1, some pair.2))

/-- `Polymer.__create_hernias_if_possible`. -/
def create_hernias_if_possible (L : List Link) (p : Nat) (pair : Pair) : List (List Link) :=
  if both_slacks pair then create_hernias_at L p pair else []

/-- `Polymer.__reptate_at`. -/
def reptate_at (L : List Link) (i : Nat) (pair : Pair) : List (List Link) :=
  if pair.1 != pair.2 then (substitute_pair L i (pair.2, pair.1)).toList else []

/-- `Polymer.__repate_if_possible`. -/
def repate_if_possible (L : List Link) (p : Nat) (pair : Pair) : List (List Link) :=
  if can_reptate pair then reptate_at L p pair else []

/-- `Polymer.__annihilate_hernia_at`. -/
def annihilate_hernia_at (L : List Link) (i : Nat) : Option (List Link) :=
  substitute_pair L i (some SLACK, some SLACK)

/-- `Polymer.__anihilate_hernias_if_possible`. -/
def anihilate_hernias_if_possible (L : List Link) (p : Nat) (pair : Pair) : List (List Link) :=
  if is_hernia pair then (annihilate_hernia_at L p).toList else []

/-- `Polymer.__change_hernia_bend_direction`. -/
def change_hernia_bend_direction (L : List Link) (i : Nat) (current : Pair) :
    List (List Link) :=
  (HERNIA_PAIRS.filter (fun hernia => ((some hernia.1, some hernia.2) : Pair) != current)).filterMap
    (fun hernia => substitute_pair L i (some hernia.1, some hernia.2))

/-- `Polymer.__change_hernia_bend_direction_if_possible`. -/
def change_hernia_bend_direction_if_possible (L : List Link) (p : Nat) (pair : Pair) :
    List (List Link) :=
  if is_hernia pair then change_hernia_bend_direction L p pair else []

/-- `Polymer.__flip_at`. -/
def flip_at (L : List Link) (i : Nat) (current : Pair) : Option (List Link) :=
  substitute_pair L i (current.2, current.1)

/-- `Polymer.__flip_bent_pair_if_possible`. -/
def flip_bent_pair_if_possible (L : List Link) (p : Nat) (pair : Pair) : List (List Link) :=
  if is_bent_pair pair then (flip_at L p pair).toList else []

/-- `Polymer.__polymer_transformers`, in source order. -/
def polymer_transformers : List (List Link → Nat → Pair → List (List Link)) :=
  [contract_taut_ends_if_possible,
   extract_slack_ends_if_possible,
   wiggle_end_links_if_possible,
   create_hernias_if_possible,
   repate_if_possible,
   anihilate_hernias_if_possible,
   change_hernia_bend_direction_if_possible,
   flip_bent_pair_if_possible]

/-- `rates.get(new_polymer, zero)`. -/
def dget {R : Type} (d : List (List Link × R)) (k : List Link) (dflt : R) : R :=
  match d.find? (fun e => e.1 == k) with
  | some e => e.2
  | none => dflt

/-- `rates[new_polymer] = new_rate`: update in place if the key is present,
append otherwise. -/
def dset {R : Type} (d : List (List Link × R)) (k : List Link) (v : R) :
    List (List Link × R) :=
  if d.any (fun e => e.1 == k) then d.map (fun e => if e.1 == k then (k, v) else e)
  else d ++ [(k, v)]

/-- `Polymer.transition_rates(move_rates, sum_with, zero)`.  Note the loop
body is transcribed exactly: the rate written for every produced polymer is
`sum_with(old_rate, zero)`, and `move_rates` is never consulted. -/
def transition_rates {R : Type} (L : List Link) (move_rates : List (Nat × R))
    (sum_with : R → R → R) (zero : R) : List (List Link × R) :=
  let _ := move_rates
  (link_pairs L).enum.foldl
    (fun rates pe =>
      polymer_transformers.foldl
        (fun rates t =>
          (t L pe.1 pe.2).foldl
            (fun rates new_polymer =>
              dset rates new_polymer (sum_with (dget rates new_polymer zero) zero))
            rates)
        rates)
    []

/-- `Polymer.reachable_from`: `set(self.transition_rates({}).keys())`, with the
default `sum_with = operator.add` and `zero = 0`. -/
def reachable_from (L : List Link) : Finset (List Link) :=
  ((transition_rates L ([] : List (Nat × Nat)) (· + ·) 0).map Prod.fst).toFinset

/-- `functools.reduce(operator.or_, (polymer.reachable_from() for polymer in grow_by))`. -/
def reach_set (A : Finset (List Link)) : Finset (List Link) :=
  A.biUnion (fun P => reachable_from P)

/-- The `while new != old` loop of `Polymer.all_with_n_links`, with an
explicit iteration bound: each round either exits or strictly grows `new`
inside the finite configuration space, so the bound supplied by
`all_with_n_links` is never exhausted (proved below). -/
def closure_loop : Nat → Finset (List Link) → Finset (List Link) → Finset (List Link) →
    Finset (List Link)
  | 0, _, new, _ => new
  | fuel + 1, old, new, grow_by =>
      if new = old then new
      else closure_loop fuel new (new ∪ grow_by) (reach_set grow_by)

/-- `Polymer.all_with_n_links(n)`: fixed-point closure from the all-curled-up
chain. -/
def all_with_n_links (n : Nat) : Finset (List Link) :=
  closure_loop (5 ^ n + 2) ∅ {curled n} (reachable_from (curled n))

/-- All link chains of length `n`: the full configuration space. -/
def linkUniv : Finset Link := {UP, DOWN, LEFT, RIGHT, SLACK}

/-- The full configuration space of chains with `n` links. -/
def allConfigs : Nat → Finset (List Link)
  | 0 => {[]}
  | n + 1 => (allConfigs n).biUnion (fun L => linkUniv.image (fun l => l :: L))

/-- The candidates produced at one pair position: the union (as a list) of the
eight transformers' outputs there. -/
def movesAt (L : List Link) (p : Nat) (pair : Pair) : List (List Link) :=
  polymer_transformers.flatMap (fun t => t L p pair)

/-- Every candidate produced by the `transition_rates` double loop, flattened
in iteration order. -/
def allMoves (L : List Link) : List (List Link) :=
  (link_pairs L).enum.flatMap (fun pe => movesAt L pe.1 pe.2)

/-- The dictionary-update loop of `transition_rates`, folded over a flat list
of produced polymers. -/
def addAll {R : Type} (sum_with : R → R → R) (zero : R) (d : List (List Link × R))
    (items : List (List Link)) : List (List Link × R) :=
  items.foldl (fun rates np => dset rates np (sum_with (dget rates np zero) zero)) d

/-- One-step reachability, iterated: `Reach P Q` when a finite sequence of
single-step moves leads from `P` to `Q`. -/
def Reach : List Link → List Link → Prop :=
  Relation.ReflTransGen (fun P Q => Q ∈ reachable_from P)

/-- Modelled from the spec: the `MoveType` catalogue of §3, as a closed
enumeration.  (`Polymer.transition_matrix` and the rate tagging it needs are
absent from `src/`; only the tests and `generate_matrix.py` reference them.) -/
inductive SpecMoveType : Type
  | HERNIA_CREATION
  | HERNIA_ANNIHILATION
  | HERNIA_REDIRECTION
  | REPTATION
  | BARRIER_CROSSING
  | END_CONTRACTION
  | END_EXTENSION
  | END_WIGGLE
deriving DecidableEq

/-- Modelled from the spec: the §4.1 rule table, pairing each candidate
produced at one pair position with the MoveType responsible, rule by rule. -/
def typed_movesAt (L : List Link) (p : Nat) (pair : Pair) :
    List (SpecMoveType × List Link) :=
  (contract_taut_ends_if_possible L p pair).map (fun m => (SpecMoveType.END_CONTRACTION, m)) ++
  (extract_slack_ends_if_possible L p pair).map (fun m => (SpecMoveType.END_EXTENSION, m)) ++
  (wiggle_end_links_if_possible L p pair).map (fun m => (SpecMoveType.END_WIGGLE, m)) ++
  (create_hernias_if_possible L p pair).map (fun m => (SpecMoveType.HERNIA_CREATION, m)) ++
  (repate_if_possible L p pair).map (fun m => (SpecMoveType.REPTATION, m)) ++
  (anihilate_hernias_if_possible L p pair).map (fun m => (SpecMoveType.HERNIA_ANNIHILATION, m)) ++
  (change_hernia_bend_direction_if_possible L p pair).map
    (fun m => (SpecMoveType.HERNIA_REDIRECTION, m)) ++
  (flip_bent_pair_if_possible L p pair).map (fun m => (SpecMoveType.BARRIER_CROSSING, m))

/-- Modelled from the spec (§4.2): like `transition_rates`, but every candidate
is paired with the rate the table assigns to the MoveType that produced it,
contributions to the same candidate being folded with `combine` from `zero`. -/
def spec_transition_rates {R : Type} (L : List Link) (T : SpecMoveType → R)
    (combine : R → R → R) (zero : R) : List (List Link × R) :=
  ((link_pairs L).enum.flatMap (fun pe => typed_movesAt L pe.1 pe.2)).foldl
    (fun rates tm => dset rates tm.2 (combine (dget rates tm.2 zero) (T tm.1))) []

/-- Modelled from the spec (§3): a mapping keyed by ordered pairs of
configurations, implicitly `zero` for absent pairs, together with the full
state set. -/
structure TransitionMatrix (R : Type) : Type where
  states : Finset (List Link)
  entry : List Link → List Link → R

/-- Modelled from the spec (§4.4): `matrix.size()` is the cardinality of the
state set. -/
def TransitionMatrix.size {R : Type} (M : TransitionMatrix R) : Nat := M.states.card

/-- Modelled from the spec (§4.4): `Polymer.transition_matrix(N, rates_table,
combine)` records, for every state `s` of `all_with_n_links(N)`, each
`(s, target) → rate` entry of `transition_rates(s, rates_table, combine)`,
absent entries reading as `zero`. -/
def transition_matrix {R : Type} (n : Nat) (T : SpecMoveType → R)
    (combine : R → R → R) (zero : R) : TransitionMatrix R :=
  { states := all_with_n_links n
    entry := fun origin target =>
      if origin ∈ all_with_n_links n then
        dget (spec_transition_rates origin T combine zero) target zero
      else zero }

end PolymerStates
namespace PolymerStates
open Link

theorem mkPolymer_eq_some {ol : List (Option Link)} {M : List Link} :
    mkPolymer ol = some M ↔ ol = M.map some := by
  induction ol generalizing M with
  | nil =>
      cases M <;> simp [mkPolymer]
  | cons head tail ih =>
      cases head with
      | none => cases M <;> simp [mkPolymer]
      | some l =>
          cases M with
          | nil => simp [mkPolymer]
          | cons m ms =>
              simp only [mkPolymer, List.map_cons, List.cons.injEq, Option.map_eq_some',
                Option.some.injEq]
              constructor
              · rintro ⟨M', hM', h1, h2⟩
                cases h2
                exact ⟨h1, (ih.mp hM')⟩
              · rintro ⟨h1, h2⟩
                exact ⟨ms, ih.mpr h2, h1, rfl⟩

theorem length_vlinks (L : List Link) : (vlinks L).length = L.length + 2 := by
  simp [vlinks]

theorem vlinks_getElem?_zero (L : List Link) : (vlinks L)[0]? = some none := by
  simp [vlinks]

theorem vlinks_getElem?_succ (L : List Link) (j : Nat) :
    (vlinks L)[j + 1]? =
      if j < L.length then L[j]?.map some
      else if j = L.length then some none else none := by
  simp only [vlinks, List.getElem?_cons_succ]
  rcases Nat.lt_trichotomy j L.length with h | h | h
  · rw [List.getElem?_append_left (by simpa using h), if_pos h, List.getElem?_map]
  · rw [List.getElem?_append_right (by simp [h]), if_neg (by omega), if_pos h]
    simp [h]
  · rw [List.getElem?_append_right (by simp; omega), if_neg (by omega), if_neg (by omega)]
    rw [List.getElem?_eq_none]
    simp; omega

theorem length_new_vlinks (L : List Link) (p : Nat) (r : Pair) :
    (new_vlinks L p r).length = L.length + 2 := by
  simp [new_vlinks, List.enum_length, length_vlinks]

theorem new_vlinks_getElem? (L : List Link) (p : Nat) (r : Pair) (i : Nat) :
    (new_vlinks L p r)[i]? =
      ((vlinks L)[i]?).map (fun x => if i = p then r.1 else if i = p + 1 then r.2 else x) := by
  simp only [new_vlinks, List.getElem?_map, List.getElem?_enum, Option.map_map]
  rfl

end PolymerStates
namespace PolymerStates
open Link

theorem sub_interior_getElem? (L : List Link) (p : Nat) (r : Pair) (i : Nat) :
    (((new_vlinks L p r).drop 1).dropLast)[i]? =
      if i < L.length then (new_vlinks L p r)[i + 1]? else none := by
  rw [List.dropLast_eq_take]
  rcases Nat.lt_or_ge i L.length with h | h
  · rw [if_pos h, List.getElem?_take_of_lt, List.getElem?_drop, Nat.add_comm]
    simp [List.length_drop, length_new_vlinks, h]
  · rw [if_neg (by omega), List.getElem?_eq_none]
    simp only [List.length_take, List.length_drop, length_new_vlinks]
    omega

theorem substitute_pair_eq_some_iff {L M : List Link} {p : Nat} {r : Pair} :
    substitute_pair L p r = some M ↔
      M.length = L.length ∧
      ∀ i, i < L.length →
        (if i + 1 = p then r.1 else if i = p then r.2 else L[i]?) = M[i]? := by
  rw [substitute_pair, mkPolymer_eq_some]
  constructor
  · intro h
    have hlen : M.length = L.length := by
      have := congrArg List.length h
      simp only [List.length_dropLast, List.length_drop, length_new_vlinks,
        List.length_map] at this
      omega
    refine ⟨hlen, fun i hi => ?_⟩
    have hgi := congrArg (fun l => l[i]?) h
    simp only [sub_interior_getElem?, if_pos hi, List.getElem?_map] at hgi
    rw [new_vlinks_getElem?, vlinks_getElem?_succ, if_pos hi] at hgi
    obtain ⟨l, hl⟩ : ∃ l, L[i]? = some l := ⟨_, List.getElem?_eq_getElem hi⟩
    obtain ⟨m, hm⟩ : ∃ m, M[i]? = some m :=
      ⟨_, List.getElem?_eq_getElem (by omega)⟩
    rw [hl, hm]
    rw [hl] at hgi
    simp only [Option.map_some'] at hgi
    rw [hm] at hgi
    simp only [Option.map_some', Option.some.injEq] at hgi
    rw [← hgi]
    by_cases h1 : i + 1 = p
    · rw [if_pos h1, if_pos h1]
    · rw [if_neg h1, if_neg h1]
      by_cases h2 : i = p
      · have : i + 1 = p + 1 := by omega
        rw [if_pos h2, if_pos this]
      · have : ¬(i + 1 = p + 1) := by omega
        rw [if_neg h2, if_neg this]
  · rintro ⟨hlen, hpt⟩
    apply List.ext_getElem?
    intro i
    rw [sub_interior_getElem?]
    rcases Nat.lt_or_ge i L.length with hi | hi
    · rw [if_pos hi, new_vlinks_getElem?, vlinks_getElem?_succ, if_pos hi]
      obtain ⟨l, hl⟩ : ∃ l, L[i]? = some l := ⟨_, List.getElem?_eq_getElem hi⟩
      obtain ⟨m, hm⟩ : ∃ m, M[i]? = some m :=
        ⟨_, List.getElem?_eq_getElem (by omega)⟩
      have := hpt i hi
      rw [hl, hm] at this
      rw [List.getElem?_map, hl, hm]
      simp only [Option.map_some', Option.some.injEq]
      rw [← this]
      by_cases h1 : i + 1 = p
      · rw [if_pos h1, if_pos h1]
      · rw [if_neg h1, if_neg h1]
        by_cases h2 : i = p
        · have h3 : i + 1 = p + 1 := by omega
          rw [if_pos h2, if_pos h3]
        · have h3 : ¬(i + 1 = p + 1) := by omega
          rw [if_neg h2, if_neg h3]
    · rw [if_neg (by omega)]
      symm
      rw [List.getElem?_eq_none]
      simp only [List.length_map]
      omega

end PolymerStates
namespace PolymerStates
open Link

theorem length_of_substitute_pair {L M : List Link} {p : Nat} {r : Pair}
    (h : substitute_pair L p r = some M) : M.length = L.length :=
  (substitute_pair_eq_some_iff.mp h).1

theorem substitute_pair_fst_eq {L M : List Link} {p : Nat} {r : Pair}
    (h : substitute_pair L p r = some M) (hp1 : 1 ≤ p) (hp2 : p ≤ L.length) :
    r.1 = M[p - 1]? := by
  have := (substitute_pair_eq_some_iff.mp h).2 (p - 1) (by omega)
  rw [if_pos (by omega)] at this
  exact this

theorem substitute_pair_snd_eq {L M : List Link} {p : Nat} {r : Pair}
    (h : substitute_pair L p r = some M) (hp : p < L.length) :
    r.2 = M[p]? := by
  have := (substitute_pair_eq_some_iff.mp h).2 p hp
  rw [if_neg (by omega), if_pos rfl] at this
  exact this

theorem substitute_pair_ne_left {L M : List Link} {p : Nat} {r : Pair}
    (h : substitute_pair L p r = some M) (hp1 : 1 ≤ p) (hp2 : p ≤ L.length)
    (hne : r.1 ≠ L[p - 1]?) : M ≠ L := by
  intro hML
  exact hne (hML ▸ substitute_pair_fst_eq h hp1 hp2)

theorem substitute_pair_ne_right {L M : List Link} {p : Nat} {r : Pair}
    (h : substitute_pair L p r = some M) (hp : p < L.length)
    (hne : r.2 ≠ L[p]?) : M ≠ L := by
  intro hML
  exact hne (hML ▸ substitute_pair_snd_eq h hp)

theorem substitute_pair_set_interior (L : List Link) (p : Nat) (a b : Link)
    (h1 : 1 ≤ p) (h2 : p < L.length) :
    substitute_pair L p (some a, some b) = some ((L.set (p - 1) a).set p b) := by
  rw [substitute_pair_eq_some_iff]
  constructor
  · simp
  · intro i hi
    simp only [List.getElem?_set, List.length_set]
    by_cases hip : i + 1 = p
    · rw [if_pos hip, if_neg (by omega), if_pos (by omega), if_pos (by omega)]
    · by_cases hip2 : i = p
      · rw [if_neg hip, if_pos hip2, if_pos hip2.symm, if_pos (by omega)]
      · rw [if_neg hip, if_neg hip2, if_neg (by omega), if_neg (by omega)]

theorem substitute_pair_set_zero (L : List Link) (x : Option Link) (b : Link)
    (hL : 0 < L.length) :
    substitute_pair L 0 (x, some b) = some (L.set 0 b) := by
  rw [substitute_pair_eq_some_iff]
  constructor
  · simp
  · intro i hi
    simp only [List.getElem?_set]
    by_cases hi0 : i = 0
    · rw [if_neg (by omega), if_pos hi0, if_pos hi0.symm, if_pos (by omega)]
    · rw [if_neg (by omega), if_neg hi0, if_neg (by omega)]

theorem substitute_pair_set_last (L : List Link) (a : Link) (y : Option Link)
    (hL : 0 < L.length) :
    substitute_pair L L.length (some a, y) = some (L.set (L.length - 1) a) := by
  rw [substitute_pair_eq_some_iff]
  constructor
  · simp
  · intro i hi
    simp only [List.getElem?_set]
    by_cases hip : i + 1 = L.length
    · rw [if_pos hip, if_pos (by omega), if_pos (by omega)]
    · rw [if_neg hip, if_neg (by omega), if_neg (by omega)]

end PolymerStates
namespace PolymerStates
open Link

theorem length_link_pairs (L : List Link) : (link_pairs L).length = L.length + 1 := by
  simp [link_pairs]

theorem link_pairs_getElem?_eq (L : List Link) (p : Nat) (hp : p ≤ L.length) :
    (link_pairs L)[p]? = some (if p = 0 then none else L[p - 1]?, L[p]?) := by
  rw [link_pairs, List.getElem?_zip_eq_some]
  constructor
  · by_cases hp0 : p = 0
    · subst hp0; simp
    · obtain ⟨q, rfl⟩ : ∃ q, p = q + 1 := ⟨p - 1, by omega⟩
      simp only [List.getElem?_cons_succ, List.getElem?_map, if_neg hp0, Nat.add_sub_cancel]
      obtain ⟨l, hl⟩ : ∃ l, L[q]? = some l := ⟨_, List.getElem?_eq_getElem (by omega)⟩
      rw [hl]; rfl
  · rcases Nat.lt_or_ge p L.length with h | h
    · rw [List.getElem?_append_left (by simpa using h), List.getElem?_map]
      obtain ⟨l, hl⟩ : ∃ l, L[p]? = some l := ⟨_, List.getElem?_eq_getElem h⟩
      rw [hl]; rfl
    · have hpL : p = L.length := by omega
      subst hpL
      rw [List.getElem?_append_right (by simp)]
      simp

theorem link_pairs_getElem?_char {L : List Link} {p : Nat} {pair : Pair}
    (h : (link_pairs L)[p]? = some pair) :
    p ≤ L.length ∧ pair.1 = (if p = 0 then none else L[p - 1]?) ∧ pair.2 = L[p]? := by
  have hp : p ≤ L.length := by
    have hlt : p < (link_pairs L).length := (List.getElem?_eq_some.mp h).1
    rw [length_link_pairs] at hlt
    omega
  rw [link_pairs_getElem?_eq L p hp] at h
  have := Option.some.inj h
  exact ⟨hp, congrArg Prod.fst this |>.symm, congrArg Prod.snd this |>.symm⟩

end PolymerStates
namespace PolymerStates
open Link

theorem foldl_foldl_flatMap {α β γ : Type _} (g : γ → β → γ) (f : α → List β)
    (l : List α) (init : γ) :
    l.foldl (fun acc x => (f x).foldl g acc) init = (l.flatMap f).foldl g init := by
  induction l generalizing init with
  | nil => rfl
  | cons a l ih => rw [List.foldl_cons, List.flatMap_cons, List.foldl_append, ih]

theorem transition_rates_eq_addAll {R : Type} (L : List Link) (mr : List (Nat × R))
    (s : R → R → R) (z : R) :
    transition_rates L mr s z = addAll s z [] (allMoves L) := by
  rw [transition_rates, allMoves, addAll]
  rw [← foldl_foldl_flatMap]
  congr 1
  funext rates pe
  rw [movesAt, ← foldl_foldl_flatMap]

theorem mem_map_fst_dset {R : Type} {d : List (List Link × R)} {k a : List Link} {v : R} :
    a ∈ (dset d k v).map Prod.fst ↔ a = k ∨ a ∈ d.map Prod.fst := by
  rw [dset]
  split
  · next hany =>
      simp only [List.map_map, List.mem_map, Function.comp]
      constructor
      · rintro ⟨e, he, hfst⟩
        by_cases hek : e.1 == k
        · rw [if_pos hek] at hfst
          exact Or.inl (by simpa using hfst.symm)
        · rw [if_neg hek] at hfst
          exact Or.inr ⟨e, he, hfst⟩
      · rintro (rfl | ⟨e, he, hfst⟩)
        · obtain ⟨e, he, hek⟩ := List.any_eq_true.mp hany
          exact ⟨e, he, by rw [if_pos hek]⟩
        · by_cases hek : e.1 == k
          · exact ⟨e, he, by rw [if_pos hek]; simp only [beq_iff_eq] at hek; rw [← hek, hfst]⟩
          · exact ⟨e, he, by rw [if_neg hek]; exact hfst⟩
  · simp only [List.map_append, List.mem_append, List.map_cons, List.map_nil,
      List.mem_singleton, List.mem_cons, List.not_mem_nil, or_false]
    tauto

theorem mem_map_fst_addAll {R : Type} (s : R → R → R) (z : R)
    (items : List (List Link)) (d : List (List Link × R)) (a : List Link) :
    a ∈ (addAll s z d items).map Prod.fst ↔ a ∈ d.map Prod.fst ∨ a ∈ items := by
  induction items generalizing d with
  | nil => simp [addAll]
  | cons b items ih =>
      rw [addAll, List.foldl_cons, ← addAll, ih, mem_map_fst_dset, List.mem_cons]
      tauto

theorem mem_reachable_from_iff {L m : List Link} :
    m ∈ reachable_from L ↔ m ∈ allMoves L := by
  rw [reachable_from, List.mem_toFinset, transition_rates_eq_addAll,
    mem_map_fst_addAll]
  simp

theorem mem_allMoves_iff {L m : List Link} :
    m ∈ allMoves L ↔ ∃ p pair, (link_pairs L)[p]? = some pair ∧ m ∈ movesAt L p pair := by
  rw [allMoves, List.mem_flatMap]
  constructor
  · rintro ⟨pe, hpe, hm⟩
    obtain ⟨i, hi⟩ := List.mem_iff_getElem?.mp hpe
    rw [List.getElem?_enum] at hi
    obtain ⟨pair, hpair, rfl⟩ : ∃ pair, (link_pairs L)[i]? = some pair ∧ pe = (i, pair) := by
      cases hq : (link_pairs L)[i]? with
      | none => rw [hq] at hi; simp at hi
      | some q => rw [hq] at hi; exact ⟨q, rfl, by simpa using hi.symm⟩
    exact ⟨i, pair, hpair, hm⟩
  · rintro ⟨p, pair, hpair, hm⟩
    refine ⟨(p, pair), ?_, hm⟩
    apply List.mem_iff_getElem?.mpr ⟨p, ?_⟩
    rw [List.getElem?_enum, hpair]
    rfl

end PolymerStates
namespace PolymerStates
open Link

theorem at_end_pairs_anatomy {f : Link → List Link} {L : List Link} {p : Nat}
    {pair : Pair} {m : List Link} (h : m ∈ at_end_pairs f L p pair) :
    is_edge_pair pair = true ∧ ∃ link new_link, the_end_link pair = some link ∧
      new_link ∈ f link ∧
      substitute_pair L p
        (pair.1.map (fun _ => new_link), pair.2.map (fun _ => new_link)) = some m := by
  rw [at_end_pairs] at h
  split at h
  · simp at h
  · next hedge =>
      split at h
      · simp at h
      · next link hlink =>
          obtain ⟨new_link, hnl, hsub⟩ := List.mem_filterMap.mp h
          exact ⟨by simpa using hedge, link, new_link, hlink, hnl, hsub⟩

theorem exists_subst_of_mem_movesAt {L : List Link} {p : Nat} {pair : Pair}
    {m : List Link} (h : m ∈ movesAt L p pair) :
    ∃ r, substitute_pair L p r = some m := by
  rw [movesAt, List.mem_flatMap] at h
  obtain ⟨t, ht, hmt⟩ := h
  simp only [polymer_transformers, List.mem_cons, List.not_mem_nil, or_false] at ht
  rcases ht with rfl | rfl | rfl | rfl | rfl | rfl | rfl | rfl
  · obtain ⟨-, -, nl, -, -, hsub⟩ := at_end_pairs_anatomy hmt
    exact ⟨_, hsub⟩
  · obtain ⟨-, -, nl, -, -, hsub⟩ := at_end_pairs_anatomy hmt
    exact ⟨_, hsub⟩
  · obtain ⟨-, -, nl, -, -, hsub⟩ := at_end_pairs_anatomy hmt
    exact ⟨_, hsub⟩
  · rw [create_hernias_if_possible] at hmt
    split at hmt
    · obtain ⟨q, -, hsub⟩ := List.mem_filterMap.mp hmt
      exact ⟨_, hsub⟩
    · simp at hmt
  · rw [repate_if_possible] at hmt
    split at hmt
    · rw [reptate_at] at hmt
      split at hmt
      · rw [Option.mem_toList, Option.mem_def] at hmt
        exact ⟨_, hmt⟩
      · simp at hmt
    · simp at hmt
  · rw [anihilate_hernias_if_possible] at hmt
    split at hmt
    · rw [Option.mem_toList, Option.mem_def, annihilate_hernia_at] at hmt
      exact ⟨_, hmt⟩
    · simp at hmt
  · rw [change_hernia_bend_direction_if_possible] at hmt
    split at hmt
    · obtain ⟨q, -, hsub⟩ := List.mem_filterMap.mp (by rw [change_hernia_bend_direction] at hmt; exact hmt)
      exact ⟨_, hsub⟩
    · simp at hmt
  · rw [flip_bent_pair_if_possible] at hmt
    split at hmt
    · rw [Option.mem_toList, Option.mem_def, flip_at] at hmt
      exact ⟨_, hmt⟩
    · simp at hmt

theorem length_of_mem_movesAt {L : List Link} {p : Nat} {pair : Pair}
    {m : List Link} (h : m ∈ movesAt L p pair) : m.length = L.length := by
  obtain ⟨r, hr⟩ := exists_subst_of_mem_movesAt h
  exact length_of_substitute_pair hr

theorem length_of_mem_allMoves {L m : List Link} (h : m ∈ allMoves L) :
    m.length = L.length := by
  obtain ⟨p, pair, -, hm⟩ := mem_allMoves_iff.mp h
  exact length_of_mem_movesAt hm

theorem length_of_mem_reachable_from {L m : List Link} (h : m ∈ reachable_from L) :
    m.length = L.length :=
  length_of_mem_allMoves (mem_reachable_from_iff.mp h)

end PolymerStates
namespace PolymerStates
open Link

theorem p_eq_zero_of_fst_none {L : List Link} {p : Nat} {pair : Pair}
    (hpair : (link_pairs L)[p]? = some pair) (h : pair.1 = none) : p = 0 := by
  obtain ⟨hp, h1, -⟩ := link_pairs_getElem?_char hpair
  by_contra hp0
  rw [if_neg hp0] at h1
  have : (p - 1) < L.length := by omega
  rw [h1, List.getElem?_eq_getElem this] at h
  exact Option.noConfusion h

theorem fst_eq_of_p_ne_zero {L : List Link} {p : Nat} {pair : Pair}
    (hpair : (link_pairs L)[p]? = some pair) (h : p ≠ 0) : pair.1 = L[p - 1]? := by
  obtain ⟨-, h1, -⟩ := link_pairs_getElem?_char hpair
  rw [h1, if_neg h]

theorem end_move_ne {L : List Link} {p : Nat} {pair : Pair} {link new_link : Link}
    {m : List Link} (hpair : (link_pairs L)[p]? = some pair)
    (hend : the_end_link pair = some link) (hne : new_link ≠ link)
    (hsub : substitute_pair L p
      (pair.1.map (fun _ => new_link), pair.2.map (fun _ => new_link)) = some m) :
    m ≠ L := by
  obtain ⟨hp, h1, h2⟩ := link_pairs_getElem?_char hpair
  by_cases hp0 : p = 0
  · subst hp0
    rw [if_pos rfl] at h1
    have hend2 : pair.2 = some link := by
      obtain ⟨a1, a2⟩ := pair
      cases a1 with
      | none => simpa [the_end_link] using hend
      | some l => exact absurd h1 (by simp)
    have hlen : 0 < L.length := by
      by_contra hlen
      rw [h2, List.getElem?_eq_none (by omega)] at hend2
      exact Option.noConfusion hend2
    apply substitute_pair_ne_right hsub hlen
    rw [hend2, ← h2, hend2]
    simp only [Option.map_some', ne_eq, Option.some.injEq]
    exact hne
  · rw [if_neg hp0] at h1
    have hfst : pair.1 = some link := by
      obtain ⟨a1, a2⟩ := pair
      cases a1 with
      | none => exact absurd (p_eq_zero_of_fst_none hpair rfl) hp0
      | some l => simpa [the_end_link] using hend
    apply substitute_pair_ne_left hsub (by omega) hp
    rw [hfst, ← h1, hfst]
    simp only [Option.map_some', ne_eq, Option.some.injEq]
    exact hne

theorem interior_first_ne {L : List Link} {p : Nat} {pair : Pair} {r : Pair}
    {m : List Link} (hpair : (link_pairs L)[p]? = some pair) (hp0 : p ≠ 0)
    (hsub : substitute_pair L p r = some m) (hner : r.1 ≠ pair.1) : m ≠ L := by
  obtain ⟨hp, -, -⟩ := link_pairs_getElem?_char hpair
  apply substitute_pair_ne_left hsub (by omega) hp
  rw [← fst_eq_of_p_ne_zero hpair hp0]
  exact hner

theorem p_ne_zero_of_fst_some {L : List Link} {p : Nat} {pair : Pair}
    (hpair : (link_pairs L)[p]? = some pair) {x : Link} (h : pair.1 = some x) : p ≠ 0 := by
  intro hp0
  subst hp0
  obtain ⟨-, h1, -⟩ := link_pairs_getElem?_char hpair
  rw [if_pos rfl] at h1
  rw [h1] at h
  exact Option.noConfusion h

theorem is_hernia_cases {pair : Pair} (h : is_hernia pair = true) :
    pair = (some UP, some DOWN) ∨ pair = (some DOWN, some UP) ∨
    pair = (some LEFT, some RIGHT) ∨ pair = (some RIGHT, some LEFT) := by
  obtain ⟨a1, a2⟩ := pair
  cases a1 with
  | none => simp [is_hernia] at h
  | some a =>
      cases a2 with
      | none => simp [is_hernia] at h
      | some b => cases a <;> cases b <;> simp_all [is_hernia]

end PolymerStates
namespace PolymerStates
open Link

theorem is_bent_pair_cases {pair : Pair} (h : is_bent_pair pair = true) :
    ∃ a b, pair = (some a, some b) ∧ (a, b) ∈ PERPENDICULAR_PAIRS ∧ a ≠ b := by
  obtain ⟨a1, a2⟩ := pair
  cases a1 with
  | none => simp [is_bent_pair] at h
  | some a =>
      cases a2 with
      | none => simp [is_bent_pair] at h
      | some b =>
          refine ⟨a, b, rfl, by simpa [is_bent_pair] using h, ?_⟩
          revert h
          cases a <;> cases b <;> decide

theorem ne_of_mem_movesAt {L : List Link} {p : Nat} {pair : Pair} {m : List Link}
    (hpair : (link_pairs L)[p]? = some pair) (h : m ∈ movesAt L p pair) : m ≠ L := by
  rw [movesAt, List.mem_flatMap] at h
  obtain ⟨t, ht, hmt⟩ := h
  simp only [polymer_transformers, List.mem_cons, List.not_mem_nil, or_false] at ht
  rcases ht with rfl | rfl | rfl | rfl | rfl | rfl | rfl | rfl
  -- contract_taut_ends
  · obtain ⟨-, link, new_link, hend, hnl, hsub⟩ := at_end_pairs_anatomy hmt
    refine end_move_ne hpair hend ?_ hsub
    revert hnl
    split
    · next htaut =>
        intro hnl
        simp only [List.mem_singleton] at hnl
        subst hnl
        revert htaut
        cases link <;> decide
    · intro hnl; simp at hnl
  -- extract_slack_ends
  · obtain ⟨-, link, new_link, hend, hnl, hsub⟩ := at_end_pairs_anatomy hmt
    refine end_move_ne hpair hend ?_ hsub
    revert hnl
    split
    · next hslack =>
        intro hnl
        have : link = SLACK := by revert hslack; cases link <;> decide
        subst this
        revert hnl
        cases new_link <;> decide
    · intro hnl; simp at hnl
  -- wiggle_end_links
  · obtain ⟨-, link, new_link, hend, hnl, hsub⟩ := at_end_pairs_anatomy hmt
    refine end_move_ne hpair hend ?_ hsub
    revert hnl
    split
    · intro hnl; simp at hnl
    · intro hnl
      have := (List.mem_filter.mp hnl).2
      simpa using this
  -- create_hernias
  · rw [create_hernias_if_possible] at hmt
    split at hmt
    · next hg =>
        have hpr : pair = (some SLACK, some SLACK) := by
          simpa [both_slacks] using hg
        obtain ⟨q, hq, hsub⟩ := List.mem_filterMap.mp hmt
        have hp0 : p ≠ 0 := p_ne_zero_of_fst_some hpair (by rw [hpr])
        refine interior_first_ne hpair hp0 hsub ?_
        rw [hpr]
        have hq4 := (List.mem_filter.mp hq).1
        simp only [List.mem_cons, List.not_mem_nil, or_false] at hq4
        rcases hq4 with rfl | rfl | rfl | rfl <;> decide
    · simp at hmt
  -- repate
  · rw [repate_if_possible] at hmt
    split at hmt
    · next hg =>
        rw [can_reptate, Bool.and_eq_true, Bool.not_eq_true'] at hg
        have hedge : is_edge_pair pair = false := hg.1
        have hfst : pair.1 ≠ none := by
          intro hn
          rw [is_edge_pair, hn] at hedge
          simp at hedge
        obtain ⟨x, hx⟩ := Option.ne_none_iff_exists'.mp hfst
        have hp0 : p ≠ 0 := p_ne_zero_of_fst_some hpair hx
        rw [reptate_at] at hmt
        split at hmt
        · next hne12 =>
            rw [Option.mem_toList, Option.mem_def] at hmt
            refine interior_first_ne hpair hp0 hmt ?_
            have : pair.1 ≠ pair.2 := by simpa using hne12
            exact this.symm
        · simp at hmt
    · simp at hmt
  -- anihilate_hernias
  · rw [anihilate_hernias_if_possible] at hmt
    split at hmt
    · next hg =>
        rw [Option.mem_toList, Option.mem_def, annihilate_hernia_at] at hmt
        rcases is_hernia_cases hg with hpr | hpr | hpr | hpr <;>
          · have hp0 : p ≠ 0 := p_ne_zero_of_fst_some hpair (by rw [hpr])
            refine interior_first_ne hpair hp0 hmt ?_
            rw [hpr]
            decide
    · simp at hmt
  -- change_hernia_bend_direction
  · rw [change_hernia_bend_direction_if_possible] at hmt
    split at hmt
    · next hg =>
        rw [change_hernia_bend_direction] at hmt
        obtain ⟨q, hq, hsub⟩ := List.mem_filterMap.mp hmt
        have hq2 := List.mem_filter.mp hq
        have hqH := hq2.1
        have hqne : ¬(((some q.1, some q.2) : Pair) = pair) := by
          intro heq
          rw [heq] at hq2
          simp at hq2
        rcases is_hernia_cases hg with hpr | hpr | hpr | hpr <;>
          · have hp0 : p ≠ 0 := p_ne_zero_of_fst_some hpair (by rw [hpr])
            refine interior_first_ne hpair hp0 hsub ?_
            subst hpr
            simp only [HERNIA_PAIRS, TAUT_LINKS, List.map_cons, List.map_nil,
              List.mem_cons, List.not_mem_nil, or_false] at hqH
            revert hqne
            rcases hqH with rfl | rfl | rfl | rfl <;> decide
    · simp at hmt
  -- flip_bent_pair
  · rw [flip_bent_pair_if_possible] at hmt
    split at hmt
    · next hg =>
        rw [Option.mem_toList, Option.mem_def, flip_at] at hmt
        obtain ⟨a, b, hpr, -, hab⟩ := is_bent_pair_cases hg
        have hp0 : p ≠ 0 := p_ne_zero_of_fst_some hpair (by rw [hpr])
        refine interior_first_ne hpair hp0 hmt ?_
        rw [hpr]
        simp only [ne_eq, Option.some.injEq]
        exact fun hba => hab hba.symm
    · simp at hmt

theorem not_mem_reachable_from_self (L : List Link) : L ∉ reachable_from L := by
  intro h
  obtain ⟨p, pair, hpair, hm⟩ := mem_allMoves_iff.mp (mem_reachable_from_iff.mp h)
  exact ne_of_mem_movesAt hpair hm rfl

end PolymerStates
namespace PolymerStates
open Link

theorem mem_reachable_from_intro {L m : List Link} {p : Nat} {pair : Pair}
    {t : List Link → Nat → Pair → List (List Link)}
    (hpair : (link_pairs L)[p]? = some pair) (ht : t ∈ polymer_transformers)
    (hm : m ∈ t L p pair) : m ∈ reachable_from L := by
  rw [mem_reachable_from_iff, mem_allMoves_iff]
  exact ⟨p, pair, hpair, by rw [movesAt, List.mem_flatMap]; exact ⟨t, ht, hm⟩⟩

theorem link_pairs_zero (l : Link) (rest : List Link) :
    (link_pairs (l :: rest))[0]? = some ((none : Option Link), some l) := by
  rw [link_pairs_getElem?_eq _ 0 (by simp)]
  simp

theorem taut_mem_TAUT_LINKS {t : Link} (ht : t.is_taut = true) : t ∈ TAUT_LINKS := by
  cases t <;> simp_all [TAUT_LINKS, Link.is_taut, Link.is_slack]

theorem extend_head_mem {x : Link} (hx : x.is_taut = true) (rest : List Link) :
    (x :: rest) ∈ reachable_from (SLACK :: rest) := by
  apply mem_reachable_from_intro (link_pairs_zero SLACK rest)
    (t := extract_slack_ends_if_possible) (by simp [polymer_transformers])
  rw [extract_slack_ends_if_possible, at_end_pairs]
  rw [if_neg (by simp [is_edge_pair])]
  show (x :: rest) ∈ (if (SLACK : Link).is_slack then TAUT_LINKS else []).filterMap _
  rw [if_pos (by decide)]
  apply List.mem_filterMap.mpr
  refine ⟨x, taut_mem_TAUT_LINKS hx, ?_⟩
  simp only [Option.map_none', Option.map_some']
  have := substitute_pair_set_zero (SLACK :: rest) none x (by simp)
  simpa using this

theorem contract_head_mem {x : Link} (hx : x.is_taut = true) (rest : List Link) :
    (SLACK :: rest) ∈ reachable_from (x :: rest) := by
  apply mem_reachable_from_intro (link_pairs_zero x rest)
    (t := contract_taut_ends_if_possible) (by simp [polymer_transformers])
  rw [contract_taut_ends_if_possible, at_end_pairs]
  rw [if_neg (by simp [is_edge_pair])]
  show (SLACK :: rest) ∈ (if x.is_taut then [SLACK] else []).filterMap _
  rw [if_pos hx]
  apply List.mem_filterMap.mpr
  refine ⟨SLACK, by simp, ?_⟩
  simp only [Option.map_none', Option.map_some']
  have := substitute_pair_set_zero (x :: rest) none SLACK (by simp)
  simpa using this

theorem reachable_from_nonempty (L : List Link) (h : 1 ≤ L.length) :
    (reachable_from L).Nonempty := by
  match L, h with
  | l :: rest, _ =>
      by_cases hl : l = SLACK
      · subst hl
        exact ⟨UP :: rest, extend_head_mem (by decide) rest⟩
      · refine ⟨SLACK :: rest, contract_head_mem ?_ rest⟩
        cases l <;> simp_all [Link.is_taut, Link.is_slack]

end PolymerStates
namespace PolymerStates
open Link

theorem taut_ne_slack {t : Link} (ht : t.is_taut = true) : t ≠ SLACK := by
  cases t <;> simp_all [Link.is_taut, Link.is_slack]

theorem reptate_step_mem {t : Link} (ht : t.is_taut = true) (pre post : List Link) :
    (pre ++ SLACK :: t :: post) ∈ reachable_from (pre ++ t :: SLACK :: post) := by
  set L := pre ++ t :: SLACK :: post with hL
  have hlen : L.length = pre.length + (post.length + 2) := by simp [hL]
  have hfst : L[pre.length]? = some t := by
    rw [hL, List.getElem?_append_right (Nat.le_refl _)]
    simp
  have hsnd : L[pre.length + 1]? = some SLACK := by
    rw [hL, List.getElem?_append_right (by omega)]
    simp [Nat.add_sub_cancel_left]
  have hpair : (link_pairs L)[pre.length + 1]? = some (some t, some SLACK) := by
    rw [link_pairs_getElem?_eq _ _ (by omega)]
    rw [if_neg (by omega)]
    rw [Nat.add_sub_cancel, hfst, hsnd]
  apply mem_reachable_from_intro hpair (t := repate_if_possible)
    (by simp [polymer_transformers])
  rw [repate_if_possible]
  rw [if_pos (by simp [can_reptate, is_edge_pair])]
  rw [reptate_at]
  rw [if_pos (by simpa using taut_ne_slack ht)]
  rw [Option.mem_toList, Option.mem_def]
  have hsub := substitute_pair_set_interior L (pre.length + 1) SLACK t (by omega) (by omega)
  rw [hsub]
  congr 1
  rw [Nat.add_sub_cancel, hL]
  rw [List.set_append, if_neg (by omega), Nat.sub_self]
  rw [List.set_append, if_neg (by omega), Nat.add_sub_cancel_left]
  rfl

end PolymerStates
namespace PolymerStates
open Link

theorem Reach.refl (L : List Link) : Reach L L := Relation.ReflTransGen.refl

theorem Reach.single {P Q : List Link} (h : Q ∈ reachable_from P) : Reach P Q :=
  Relation.ReflTransGen.single h

theorem Reach.head {P Q S : List Link} (h : Q ∈ reachable_from P) (h2 : Reach Q S) :
    Reach P S :=
  Relation.ReflTransGen.head h h2

theorem Reach.trans {P Q S : List Link} (h : Reach P Q) (h2 : Reach Q S) : Reach P S :=
  Relation.ReflTransGen.trans h h2

theorem replicate_succ_append {α : Type _} (k : Nat) (x : α) (l : List α) :
    List.replicate (k + 1) x ++ l = List.replicate k x ++ x :: l := by
  rw [List.replicate_succ' k x, List.append_assoc]
  rfl

theorem shift_taut_right {t : Link} (ht : t.is_taut = true) (rest : List Link) :
    ∀ b a : Nat, Reach (List.replicate a SLACK ++ t :: (List.replicate b SLACK ++ rest))
      (List.replicate (a + b) SLACK ++ t :: rest) := by
  intro b
  induction b with
  | zero => intro a; simpa using Reach.refl _
  | succ b ih =>
      intro a
      have step : (List.replicate a SLACK ++ SLACK :: t :: (List.replicate b SLACK ++ rest)) ∈
          reachable_from (List.replicate a SLACK ++ t :: SLACK :: (List.replicate b SLACK ++ rest)) :=
        reptate_step_mem ht _ _
      have heq : List.replicate a SLACK ++ t :: (List.replicate (b + 1) SLACK ++ rest) =
          List.replicate a SLACK ++ t :: SLACK :: (List.replicate b SLACK ++ rest) := by
        rw [List.replicate_succ]
        rfl
      have heq2 : List.replicate a SLACK ++ SLACK :: t :: (List.replicate b SLACK ++ rest) =
          List.replicate (a + 1) SLACK ++ t :: (List.replicate b SLACK ++ rest) := by
        rw [replicate_succ_append]
      rw [heq]
      apply Reach.head step
      rw [heq2]
      have := ih (a + 1)
      have harith : a + 1 + b = a + (b + 1) := by omega
      rwa [harith] at this

theorem build_suffix (suffix : List Link) :
    ∀ k : Nat, Reach (curled (k + suffix.length)) (List.replicate k SLACK ++ suffix) := by
  induction suffix with
  | nil => intro k; simpa [curled] using Reach.refl _
  | cons t rest ih =>
      intro k
      rw [show k + (t :: rest).length = k + 1 + rest.length from by simp; omega]
      by_cases htaut : t.is_taut
      · apply Reach.trans (ih (k + 1))
        rw [List.replicate_succ, List.cons_append]
        apply Reach.head (extend_head_mem htaut (List.replicate k SLACK ++ rest))
        have := shift_taut_right htaut rest k 0
        simpa using this
      · have hslack : t = SLACK := by
          cases t <;> simp_all [Link.is_taut, Link.is_slack]
        subst hslack
        have := ih (k + 1)
        rwa [replicate_succ_append] at this

theorem reach_curled (T : List Link) : Reach (curled T.length) T := by
  have := build_suffix T 0
  simpa using this

end PolymerStates
namespace PolymerStates
open Link

theorem mem_linkUniv (l : Link) : l ∈ linkUniv := by cases l <;> decide

theorem card_linkUniv : linkUniv.card = 5 := by decide

theorem mem_allConfigs {n : Nat} {L : List Link} : L ∈ allConfigs n ↔ L.length = n := by
  induction n generalizing L with
  | zero => simp [allConfigs, List.length_eq_zero]
  | succ n ih =>
      rw [allConfigs, Finset.mem_biUnion]
      constructor
      · rintro ⟨M, hM, hL⟩
        obtain ⟨l, -, rfl⟩ := Finset.mem_image.mp hL
        simp [ih.mp hM]
      · intro hlen
        cases L with
        | nil => simp at hlen
        | cons l M =>
            refine ⟨M, ih.mpr (by simpa using hlen), Finset.mem_image.mpr ⟨l, mem_linkUniv l, rfl⟩⟩

theorem card_allConfigs (n : Nat) : (allConfigs n).card = 5 ^ n := by
  induction n with
  | zero => simp [allConfigs]
  | succ n ih =>
      rw [allConfigs, Finset.card_biUnion, pow_succ]
      · rw [Finset.sum_congr rfl (fun L _ => Finset.card_image_of_injective linkUniv
          (fun a b h => (List.cons.injEq _ _ _ _).mp h |>.1))]
        simp [card_linkUniv, ih, Nat.mul_comm]
      · intro L1 h1 L2 h2 hne
        apply Finset.disjoint_left.mpr
        rintro M hM1 hM2
        obtain ⟨a, -, rfl⟩ := Finset.mem_image.mp hM1
        obtain ⟨b, -, hb⟩ := Finset.mem_image.mp hM2
        exact hne ((List.cons.injEq _ _ _ _).mp hb |>.2).symm

theorem reach_set_subset_allConfigs {n : Nat} {A : Finset (List Link)}
    (h : A ⊆ allConfigs n) : reach_set A ⊆ allConfigs n := by
  intro m hm
  obtain ⟨P, hP, hmP⟩ := Finset.mem_biUnion.mp hm
  rw [mem_allConfigs]
  rw [length_of_mem_reachable_from hmP]
  exact mem_allConfigs.mp (h hP)

theorem reach_set_union (A B : Finset (List Link)) :
    reach_set (A ∪ B) = reach_set A ∪ reach_set B := by
  ext m
  simp only [reach_set, Finset.mem_biUnion, Finset.mem_union]
  constructor
  · rintro ⟨P, hP | hP, hm⟩
    · exact Or.inl ⟨P, hP, hm⟩
    · exact Or.inr ⟨P, hP, hm⟩
  · rintro (⟨P, hP, hm⟩ | ⟨P, hP, hm⟩)
    · exact ⟨P, Or.inl hP, hm⟩
    · exact ⟨P, Or.inr hP, hm⟩

theorem reach_set_mono {A B : Finset (List Link)} (h : A ⊆ B) :
    reach_set A ⊆ reach_set B := by
  intro m hm
  obtain ⟨P, hP, hmP⟩ := Finset.mem_biUnion.mp hm
  exact Finset.mem_biUnion.mpr ⟨P, h hP, hmP⟩

end PolymerStates
namespace PolymerStates
open Link

theorem closure_loop_spec (n : Nat) :
    ∀ (fuel : Nat) (old new grow : Finset (List Link)),
      reach_set old ⊆ new →
      reach_set new ⊆ new ∪ grow →
      old ⊆ new →
      new ⊆ allConfigs n →
      grow ⊆ allConfigs n →
      (allConfigs n).card + 2 ≤ fuel + new.card →
      (closure_loop fuel old new grow ⊆ allConfigs n ∧
       new ⊆ closure_loop fuel old new grow ∧
       reach_set (closure_loop fuel old new grow) ⊆ closure_loop fuel old new grow) := by
  intro fuel
  induction fuel with
  | zero =>
      intro old new grow h1 h2 h3 h4 h5 hfuel
      exfalso
      have := Finset.card_le_card h4
      omega
  | succ fuel ih =>
      intro old new grow h1 h2 h3 h4 h5 hfuel
      rw [closure_loop]
      by_cases hstop : new = old
      · rw [if_pos hstop]
        refine ⟨h4, Finset.Subset.refl _, ?_⟩
        calc reach_set new = reach_set old := by rw [hstop]
          _ ⊆ new := h1
      · rw [if_neg hstop]
        by_cases hsame : new ∪ grow = new
        · rw [hsame]
          cases fuel with
          | zero =>
              exfalso
              have := Finset.card_le_card h4
              omega
          | succ fuel2 =>
              rw [closure_loop, if_pos rfl]
              refine ⟨h4, Finset.Subset.refl _, ?_⟩
              calc reach_set new ⊆ new ∪ grow := h2
                _ = new := hsame
        · have hlt : new.card < (new ∪ grow).card := by
            apply Finset.card_lt_card
            rw [Finset.ssubset_iff_subset_ne]
            exact ⟨Finset.subset_union_left, fun h => hsame h.symm⟩
          have r1 : reach_set new ⊆ new ∪ grow := h2
          have r2 : reach_set (new ∪ grow) ⊆ (new ∪ grow) ∪ reach_set grow := by
            rw [reach_set_union]
            apply Finset.union_subset
            · exact h2.trans Finset.subset_union_left
            · exact Finset.subset_union_right
          have r3 : new ⊆ new ∪ grow := Finset.subset_union_left
          have r4 : new ∪ grow ⊆ allConfigs n := Finset.union_subset h4 h5
          have r5 : reach_set grow ⊆ allConfigs n := reach_set_subset_allConfigs h5
          have rf : (allConfigs n).card + 2 ≤ fuel + (new ∪ grow).card := by omega
          obtain ⟨ha, hb, hc⟩ := ih new (new ∪ grow) (reach_set grow) r1 r2 r3 r4 r5 rf
          exact ⟨ha, r3.trans hb, hc⟩

theorem all_with_n_links_eq (n : Nat) : all_with_n_links n = allConfigs n := by
  have hcur : curled n ∈ allConfigs n := mem_allConfigs.mpr (by simp [curled])
  have h1 : reach_set (∅ : Finset (List Link)) ⊆ {curled n} := by
    intro x hx
    obtain ⟨P, hP, -⟩ := Finset.mem_biUnion.mp hx
    exact absurd hP (Finset.not_mem_empty P)
  have h2 : reach_set {curled n} ⊆ {curled n} ∪ reachable_from (curled n) := by
    intro x hx
    obtain ⟨P, hP, hxP⟩ := Finset.mem_biUnion.mp hx
    rw [Finset.mem_singleton] at hP
    subst hP
    exact Finset.mem_union_right _ hxP
  have h3 : (∅ : Finset (List Link)) ⊆ {curled n} := Finset.empty_subset _
  have h4 : ({curled n} : Finset (List Link)) ⊆ allConfigs n :=
    Finset.singleton_subset_iff.mpr hcur
  have h5 : reachable_from (curled n) ⊆ allConfigs n := by
    intro m hm
    rw [mem_allConfigs, length_of_mem_reachable_from hm]
    simp [curled]
  have hf : (allConfigs n).card + 2 ≤
      (5 ^ n + 2) + ({curled n} : Finset (List Link)).card := by
    rw [card_allConfigs]
    simp
  obtain ⟨hsub, hself, hclosed⟩ :=
    closure_loop_spec n (5 ^ n + 2) ∅ {curled n} (reachable_from (curled n)) h1 h2 h3 h4 h5 hf
  rw [all_with_n_links]
  apply Finset.Subset.antisymm hsub
  intro T hT
  have hreach : Reach (curled n) T := by
    have := reach_curled T
    rwa [mem_allConfigs.mp hT] at this
  have hcur_in : curled n ∈ closure_loop (5 ^ n + 2) ∅ {curled n} (reachable_from (curled n)) :=
    hself (Finset.mem_singleton_self _)
  clear hT
  induction hreach with
  | refl => exact hcur_in
  | tail hab hbc ihab =>
      exact hclosed (Finset.mem_biUnion.mpr ⟨_, ihab, hbc⟩)

theorem card_all_with_n_links (n : Nat) : (all_with_n_links n).card = 5 ^ n := by
  rw [all_with_n_links_eq, card_allConfigs]

end PolymerStates
namespace PolymerStates
open Link

theorem dget_cons {R : Type} (e : List Link × R) (d : List (List Link × R))
    (k : List Link) (z : R) :
    dget (e :: d) k z = if e.1 == k then e.2 else dget d k z := by
  by_cases h : (e.1 == k) = true
  · simp [dget, List.find?_cons, h]
  · simp only [Bool.not_eq_true] at h
    simp [dget, List.find?_cons, h]

theorem dget_map_update_ne {R : Type} (d : List (List Link × R)) (k k' : List Link)
    (v : R) (z : R) (hne : k' ≠ k) :
    dget (d.map (fun e => if e.1 == k then (k, v) else e)) k' z = dget d k' z := by
  induction d with
  | nil => rfl
  | cons e d ih =>
      rw [List.map_cons]
      by_cases he : (e.1 == k) = true
      · rw [if_pos he, dget_cons, dget_cons]
        have he1 : e.1 = k := by simpa using he
        have h1 : ((k, v).1 == k') = false := by
          simpa using fun h => hne h.symm
        have h2 : (e.1 == k') = false := by
          rw [he1]
          simpa using fun h => hne h.symm
        rw [h1, h2]
        simpa using ih
      · rw [if_neg he, dget_cons, dget_cons]
        by_cases he2 : (e.1 == k') = true
        · rw [if_pos he2, if_pos he2]
        · rw [if_neg he2, if_neg he2]
          exact ih

theorem dget_append_singleton_ne {R : Type} (d : List (List Link × R)) (k k' : List Link)
    (v : R) (z : R) (hne : k' ≠ k) :
    dget (d ++ [(k, v)]) k' z = dget d k' z := by
  induction d with
  | nil =>
      rw [List.nil_append, dget_cons]
      have h1 : ((k, v).1 == k') = false := by
        simpa using fun h => hne h.symm
      rw [h1]
      simp [dget]
  | cons e d ih =>
      rw [List.cons_append, dget_cons, dget_cons]
      by_cases he : (e.1 == k') = true
      · rw [if_pos he, if_pos he]
      · rw [if_neg he, if_neg he]
        exact ih

theorem dget_dset_ne {R : Type} (d : List (List Link × R)) {k k' : List Link}
    (v : R) (z : R) (hne : k' ≠ k) :
    dget (dset d k v) k' z = dget d k' z := by
  rw [dset]
  split
  · exact dget_map_update_ne d k k' v z hne
  · exact dget_append_singleton_ne d k k' v z hne

theorem dget_dset_eq {R : Type} (d : List (List Link × R)) (k : List Link)
    (v : R) (z : R) :
    dget (dset d k v) k z = v := by
  rw [dset]
  split
  · next hany =>
      induction d with
      | nil => simp at hany
      | cons e d ih =>
          rw [List.map_cons]
          by_cases he : (e.1 == k) = true
          · rw [if_pos he, dget_cons]
            simp
          · rw [if_neg he, dget_cons, if_neg (by simpa using he)]
            have hany2 : d.any (fun e => e.1 == k) = true := by
              rw [List.any_cons] at hany
              rcases Bool.or_eq_true_iff.mp hany with h | h
              · exact absurd h he
              · exact h
            exact ih hany2
  · next hany =>
      rw [List.any_eq_true] at hany
      push_neg at hany
      induction d with
      | nil =>
          rw [List.nil_append, dget_cons]
          simp
      | cons e d ih =>
          rw [List.cons_append, dget_cons]
          have he : (e.1 == k) = false := by
            have := hany e (List.mem_cons_self e d)
            simpa using this
          rw [he]
          simp only [Bool.false_eq_true, if_false]
          apply ih
          intro x hx
          exact hany x (List.mem_cons_of_mem e hx)

end PolymerStates
namespace PolymerStates
open Link

theorem typed_moves_UP_RIGHT :
    (link_pairs [UP, RIGHT]).enum.flatMap (fun pe => typed_movesAt [UP, RIGHT] pe.1 pe.2) =
      [(SpecMoveType.END_CONTRACTION, [SLACK, RIGHT]),
       (SpecMoveType.END_WIGGLE, [DOWN, RIGHT]),
       (SpecMoveType.END_WIGGLE, [LEFT, RIGHT]),
       (SpecMoveType.END_WIGGLE, [RIGHT, RIGHT]),
       (SpecMoveType.BARRIER_CROSSING, [RIGHT, UP]),
       (SpecMoveType.END_CONTRACTION, [UP, SLACK]),
       (SpecMoveType.END_WIGGLE, [UP, UP]),
       (SpecMoveType.END_WIGGLE, [UP, DOWN]),
       (SpecMoveType.END_WIGGLE, [UP, LEFT])] := by decide

theorem spec_transition_rates_UP_RIGHT (T : SpecMoveType → Nat) :
    dget (spec_transition_rates [UP, RIGHT] T Nat.lor 0) [SLACK, RIGHT] 0 =
      T SpecMoveType.END_CONTRACTION := by
  rw [spec_transition_rates, typed_moves_UP_RIGHT]
  simp only [List.foldl_cons, List.foldl_nil]
  rw [dget_dset_ne _ _ _ (by decide), dget_dset_ne _ _ _ (by decide),
    dget_dset_ne _ _ _ (by decide), dget_dset_ne _ _ _ (by decide),
    dget_dset_ne _ _ _ (by decide), dget_dset_ne _ _ _ (by decide),
    dget_dset_ne _ _ _ (by decide), dget_dset_ne _ _ _ (by decide),
    dget_dset_eq]
  show Nat.lor 0 (T SpecMoveType.END_CONTRACTION) = T SpecMoveType.END_CONTRACTION
  exact Nat.zero_or _

theorem UP_RIGHT_mem_states : [UP, RIGHT] ∈ all_with_n_links 2 := by
  rw [all_with_n_links_eq]
  exact mem_allConfigs.mpr rfl

theorem keys_length {R : Type} (mr : List (Nat × R)) (s : R → R → R) (z : R)
    (L m : List Link) (h : m ∈ (transition_rates L mr s z).map Prod.fst) :
    m.length = L.length := by
  rw [transition_rates_eq_addAll, mem_map_fst_addAll] at h
  rcases h with h | h
  · simp at h
  · exact length_of_mem_allMoves h

theorem mem_all_with_n_links_length {n : Nat} {m : List Link}
    (h : m ∈ all_with_n_links n) : m.length = n := by
  rw [all_with_n_links_eq] at h
  exact mem_allConfigs.mp h

end PolymerStates
namespace PolymerStates
open Link

/-- C1: `transition_rates` never consults the rate table: for every table the
hernia-creation result `[UP, DOWN]` of `[SLACK, SLACK]` is keyed, yet its rate
is the combinator's fold of `zero` with `zero` alone, i.e. `0`, both for the
default `operator.add` and for bitwise-or combination - not the table's
`HERNIA_CREATION` entry as the claim states. -/
theorem C1_transition_rates_ignores_rate_table :
    ∀ T : List (Nat × Nat),
      [UP, DOWN] ∈ reachable_from [SLACK, SLACK] ∧
      dget (transition_rates [SLACK, SLACK] T (· + ·) 0) [UP, DOWN] 0 = 0 ∧
      dget (transition_rates [SLACK, SLACK] T Nat.lor 0) [UP, DOWN] 0 = 0 :=
  fun _ => ⟨by decide, rfl, rfl⟩

/-- C3 counterexample: constructing a polymer from the empty sequence of links
does not fail, and neither does `all_curled_up 0`. -/
theorem C3_counterexample_empty_chain_accepted :
    mkPolymer [] ≠ none ∧ all_curled_up 0 ≠ none := by decide

/-- C3 amended: `Polymer([])` and `Polymer.all_curled_up(0)` both succeed,
producing the zero-link polymer; no emptiness check exists. -/
theorem C3_empty_chain_succeeds :
    mkPolymer [] = some [] ∧ all_curled_up 0 = some [] := ⟨rfl, rfl⟩

/-- C4: `MoveType` is a closed set of 8 distinct single-bit values and
construction from any other value fails, but the fifth exposed name is
`HERNIA_`, not `HERNIA_REDIRECTION` as the claim (and the code's own tests
and callers) have it. -/
theorem C4_move_type_closed_but_name_truncated :
    MoveType_attr_names.length = 8 ∧
    "HERNIA_REDIRECTION" ∉ MoveType_attr_names ∧
    "HERNIA_" ∈ MoveType_attr_names ∧
    VALID_MOVE_TYPE_VALUES = [1, 2, 4, 8, 16, 32, 64, 128] ∧
    VALID_MOVE_TYPE_VALUES.Nodup ∧
    (∀ v ∈ VALID_MOVE_TYPE_VALUES, MoveType.mk? v = some v) ∧
    (∀ v : Nat, v ∉ VALID_MOVE_TYPE_VALUES → MoveType.mk? v = none) := by
  refine ⟨by decide, by decide, by decide, by decide, by decide, by decide, ?_⟩
  intro v hv
  rw [MoveType.mk?, if_neg hv]

/-- C8: the hernia chain `[UP, DOWN]` reaches the three other hernia
orientations and the annihilated chain, and does not reach itself. -/
theorem C8_hernia_chain_reachability :
    [LEFT, RIGHT] ∈ reachable_from [UP, DOWN] ∧
    [RIGHT, LEFT] ∈ reachable_from [UP, DOWN] ∧
    [DOWN, UP] ∈ reachable_from [UP, DOWN] ∧
    [SLACK, SLACK] ∈ reachable_from [UP, DOWN] ∧
    [UP, DOWN] ∉ reachable_from [UP, DOWN] := by decide

end PolymerStates
namespace PolymerStates
open Link

theorem transition_matrix_entry_of_len {R : Type} (n : Nat) (T : SpecMoveType → R)
    (combine : R → R → R) (zero : R) (origin : List Link)
    (h : origin.length = n) (target : List Link) :
    (transition_matrix n T combine zero).entry origin target =
      dget (spec_transition_rates origin T combine zero) target zero := by
  simp only [transition_matrix]
  rw [if_pos]
  rw [all_with_n_links_eq]
  exact mem_allConfigs.mpr h

theorem transition_matrix_size {R : Type} (n : Nat) (T : SpecMoveType → R)
    (combine : R → R → R) (zero : R) :
    (transition_matrix n T combine zero).size = (all_with_n_links n).card := by
  simp only [TransitionMatrix.size, transition_matrix]

/-- C2 (spec-modelled): for two links and any rate table combined with
bitwise or, the transition matrix has 25 states and its entry at origin
`[UP, RIGHT]`, target `[SLACK, RIGHT]` is the table's END_CONTRACTION rate. -/
theorem C2_transition_matrix_size_and_entry :
    ∀ T : SpecMoveType → Nat,
      (transition_matrix 2 T Nat.lor 0).size = 25 ∧
      (transition_matrix 2 T Nat.lor 0).entry [UP, RIGHT] [SLACK, RIGHT] =
        T SpecMoveType.END_CONTRACTION := by
  intro T
  constructor
  · rw [transition_matrix_size, card_all_with_n_links]
    norm_num
  · exact (transition_matrix_entry_of_len 2 T Nat.lor 0 [UP, RIGHT] rfl
      [SLACK, RIGHT]).trans (spec_transition_rates_UP_RIGHT T)

/-- C5 counterexample: substituting the pair `(DOWN, UP)` at interior position
2 of the four-slack chain writes `DOWN` into link 1 and `UP` into link 2 -
not, as the claim has it, the pair's second component into link 1 and its
first into link 2. -/
theorem C5_counterexample_substitute_pair_order :
    substitute_pair [SLACK, SLACK, SLACK, SLACK] 2 (some DOWN, some UP) =
      some [SLACK, DOWN, UP, SLACK] ∧
    substitute_pair [SLACK, SLACK, SLACK, SLACK] 2 (some DOWN, some UP) ≠
      some [SLACK, UP, DOWN, SLACK] := by decide

/-- C5 amended: `substitute_pair(p, (first, second))` sets `link_{p-1}` to
`first` and `link_p` to `second`, writing both real links at interior
positions and exactly one real link at the two boundary positions (position 0
writes `link_0 := second`; position N writes `link_{N-1} := first`). -/
theorem C5_substitute_pair_writes_first_into_left_link :
    (∀ (L : List Link) (p : Nat) (f s : Link), 1 ≤ p → p < L.length →
      substitute_pair L p (some f, some s) = some ((L.set (p - 1) f).set p s)) ∧
    (∀ (L : List Link) (x : Option Link) (s : Link), 0 < L.length →
      substitute_pair L 0 (x, some s) = some (L.set 0 s)) ∧
    (∀ (L : List Link) (f : Link) (y : Option Link), 0 < L.length →
      substitute_pair L L.length (some f, y) = some (L.set (L.length - 1) f)) :=
  ⟨fun L p f s h1 h2 => substitute_pair_set_interior L p f s h1 h2,
   fun L x s h => substitute_pair_set_zero L x s h,
   fun L f y h => substitute_pair_set_last L f y h⟩

/-- C5 witness: the amended statement evaluated at the three positions of the
test suite's substitution cases. -/
theorem C5_substitute_pair_witness :
    substitute_pair [SLACK, SLACK, SLACK, SLACK] 2 (some DOWN, some UP) =
      some (([SLACK, SLACK, SLACK, SLACK].set 1 DOWN).set 2 UP) ∧
    substitute_pair [UP, RIGHT] 0 (none, some SLACK) = some ([UP, RIGHT].set 0 SLACK) ∧
    substitute_pair [UP, RIGHT] [UP, RIGHT].length (some SLACK, none) =
      some ([UP, RIGHT].set ([UP, RIGHT].length - 1) SLACK) :=
  ⟨C5_substitute_pair_writes_first_into_left_link.1 [SLACK, SLACK, SLACK, SLACK] 2 DOWN UP
      (by decide) (by decide),
   C5_substitute_pair_writes_first_into_left_link.2.1 [UP, RIGHT] none SLACK (by decide),
   C5_substitute_pair_writes_first_into_left_link.2.2 [UP, RIGHT] SLACK none (by decide)⟩

/-- C6: for every chain length the fixed-point closure from the all-curled-up
configuration reaches the entire configuration space, of cardinality `5 ^ n`. -/
theorem C6_all_with_n_links_card (n : Nat) (hn : 1 ≤ n) :
    (all_with_n_links n).card = 5 ^ n :=
  card_all_with_n_links n

/-- C6 witness: one link yields five configurations. -/
theorem C6_all_with_n_links_card_witness :
    1 ≤ 1 ∧ (all_with_n_links 1).card = 5 ^ 1 :=
  ⟨by decide, C6_all_with_n_links_card 1 (by decide)⟩

/-- C7: no polymer is a member of its own single-step reachable set. -/
theorem C7_reachable_from_excludes_self (L : List Link) : L ∉ reachable_from L := by
  intro h
  obtain ⟨p, pair, hpair, hm⟩ := mem_allMoves_iff.mp (mem_reachable_from_iff.mp h)
  exact ne_of_mem_movesAt hpair hm rfl

/-- C7 witness: the single-slack chain does not reach itself. -/
theorem C7_reachable_from_excludes_self_witness : [SLACK] ∉ reachable_from [SLACK] :=
  C7_reachable_from_excludes_self [SLACK]

/-- C9: every candidate key of `transition_rates`, every member of
`reachable_from`, and every member of `all_with_n_links n` has the origin's
link count. -/
theorem C9_length_preserved :
    (∀ (R : Type) (mr : List (Nat × R)) (s : R → R → R) (z : R) (L m : List Link),
      m ∈ (transition_rates L mr s z).map Prod.fst → m.length = L.length) ∧
    (∀ L m : List Link, m ∈ reachable_from L → m.length = L.length) ∧
    (∀ n : Nat, 1 ≤ n → ∀ m ∈ all_with_n_links n, m.length = n) :=
  ⟨fun R mr s z L m h => keys_length mr s z L m h,
   fun L m h => length_of_mem_reachable_from h,
   fun n hn m hm => mem_all_with_n_links_length hm⟩

set_option maxRecDepth 20000 in
/-- C9 witness: the length facts evaluated on concrete members. -/
theorem C9_length_preserved_witness :
    [UP, DOWN].length = [SLACK, SLACK].length ∧
    [SLACK, UP].length = [SLACK, SLACK].length ∧
    (1 ≤ 1 ∧ [UP].length = 1) :=
  ⟨C9_length_preserved.1 Nat [] (· + ·) 0 [SLACK, SLACK] [UP, DOWN] (by decide),
   C9_length_preserved.2.1 [SLACK, SLACK] [SLACK, UP] (by decide),
   by decide,
   C9_length_preserved.2.2 1 (by decide) [UP]
     (by rw [all_with_n_links_eq]; exact mem_allConfigs.mpr rfl)⟩

/-- C10: a polymer with at least one link always has at least one reachable
successor: a slack end link extends, a taut end link contracts. -/
theorem C10_reachable_from_nonempty (L : List Link) (h : 1 ≤ L.length) :
    (reachable_from L).Nonempty :=
  reachable_from_nonempty L h

/-- C10 witness: the single-slack chain has a successor. -/
theorem C10_reachable_from_nonempty_witness :
    1 ≤ [SLACK].length ∧ (reachable_from [SLACK]).Nonempty :=
  ⟨by decide, C10_reachable_from_nonempty [SLACK] (by decide)⟩

end PolymerStates
